import Mathlib

/-!
Verification of the arithmetic calculator in `src/calculator.c`.

The source defines four C functions over IEEE-754 binary64 (`double`):

  double add(double a, double b)       { return a + b; }
  double substract(double a, double b) { return a - b; }
  double multiply(double a, double b)  { return a * b; }
  double divide(double a, double b)    { if (b == 0) return 0; return a / b; }

We embed binary64 shallowly: a `Double` is NaN, a signed infinity, a signed
zero, or a finite nonzero value `±m * 2^e` with a natural significand `m` and
integer exponent `e`.  The IEEE-754 arithmetic operations are modelled
executably with exact rational arithmetic followed by rounding to nearest,
ties to even, including gradual underflow and overflow to infinity, for the
binary64 format (53-bit significand, exponent range giving least quantum
2^(-1074) and largest finite value (2^53 - 1) * 2^971).
-/

namespace Calculator

/-- A binary64 datum: NaN (all NaN payloads identified), a signed infinity,
a signed zero, or a finite nonzero value `(-1)^sign * m * 2^e`. -/
inductive Double where
  | nan : Double
  | inf (sign : Bool) : Double
  | zero (sign : Bool) : Double
  | finite (sign : Bool) (m : ℕ) (e : ℤ) : Double
deriving DecidableEq

/-- The exact rational value of a `Double`; non-finite data are mapped to 0
(they are never consulted through `toRat` in a value-relevant way). -/
def toRat : Double → ℚ
  | .finite s m e => (if s then -1 else 1) * (m : ℚ) * (2 : ℚ) ^ e
  | _ => 0

/-- Canonical binary64 representations: a finite value has a positive
significand below 2^53, exponent between -1074 and 971, and is either
normal (significand at least 2^52) or subnormal (exponent exactly -1074).
Every real binary64 bit pattern denotes exactly one `Valid` `Double`. -/
def Valid : Double → Prop
  | .finite _ m e =>
      0 < m ∧ m < 2 ^ 53 ∧ -1074 ≤ e ∧ e ≤ 971 ∧ (2 ^ 52 ≤ m ∨ e = -1074)
  | _ => True

instance : DecidablePred Valid := fun x =>
  match x with
  | .nan => .isTrue trivial
  | .inf _ => .isTrue trivial
  | .zero _ => .isTrue trivial
  | .finite _ m e =>
      inferInstanceAs (Decidable
        (0 < m ∧ m < 2 ^ 53 ∧ -1074 ≤ e ∧ e ≤ 971 ∧ (2 ^ 52 ≤ m ∨ e = -1074)))

/-- A `Double` is finite when it is neither NaN nor an infinity (signed
zeros are finite). -/
def Finite : Double → Prop
  | .zero _ => True
  | .finite _ _ _ => True
  | _ => False

instance : DecidablePred Finite := fun x =>
  match x with
  | .nan => .isFalse id
  | .inf _ => .isFalse id
  | .zero _ => .isTrue trivial
  | .finite _ _ _ => .isTrue trivial

/-- The sign bit of a `Double` (junk `false` for NaN). -/
def dsign : Double → Bool
  | .nan => false
  | .inf s => s
  | .zero s => s
  | .finite s _ _ => s

/-- IEEE-754 equality comparison (C `==` on doubles): NaN compares unequal
to everything, infinities compare by sign, and numeric data compare by
value, so `-0.0 == +0.0` holds. -/
def feq (x y : Double) : Bool :=
  match x, y with
  | .nan, _ => false
  | _, .nan => false
  | .inf s, .inf t => s == t
  | .inf _, _ => false
  | _, .inf _ => false
  | a, b => decide (toRat a = toRat b)

/-- IEEE-754 negation: flip the sign bit. -/
def fneg : Double → Double
  | .nan => .nan
  | .inf s => .inf (!s)
  | .zero s => .zero (!s)
  | .finite s m e => .finite (!s) m e

/-- Floor of the base-2 logarithm of a positive rational, computed from the
bit lengths of numerator and denominator with one comparison to correct. -/
def flog2 (q : ℚ) : ℤ :=
  if (2 : ℚ) ^ ((Nat.log 2 q.num.natAbs : ℤ) - (Nat.log 2 q.den : ℤ)) ≤ q then
    (Nat.log 2 q.num.natAbs : ℤ) - (Nat.log 2 q.den : ℤ)
  else
    (Nat.log 2 q.num.natAbs : ℤ) - (Nat.log 2 q.den : ℤ) - 1

/-- Round a rational to the nearest integer, ties to even. -/
def rnint (q : ℚ) : ℤ :=
  if q - (⌊q⌋ : ℚ) < 1 / 2 then ⌊q⌋
  else if (1 : ℚ) / 2 < q - (⌊q⌋ : ℚ) then ⌊q⌋ + 1
  else if ⌊q⌋ % 2 = 0 then ⌊q⌋ else ⌊q⌋ + 1

/-- The binary64 quantum exponent at which a positive rational is rounded:
52 below its leading bit, floored at the subnormal quantum 2^(-1074). -/
def roundExp (q : ℚ) : ℤ := max (-1074) (flog2 q - 52)

/-- The rounded significand of a positive rational at its quantum. -/
def roundSig (q : ℚ) : ℕ := (rnint (q / (2 : ℚ) ^ roundExp q)).toNat

/-- Round a positive rational magnitude to binary64 with sign `s`:
round-to-nearest-even at the quantum, renormalising a carried-out
significand and overflowing past exponent 971 to infinity. -/
def roundMag (s : Bool) (q : ℚ) : Double :=
  if roundSig q = 0 then .zero s
  else if roundSig q < 2 ^ 53 then
    if roundExp q ≤ 971 then .finite s (roundSig q) (roundExp q) else .inf s
  else
    if roundExp q + 1 ≤ 971 then .finite s (2 ^ 52) (roundExp q + 1)
    else .inf s

/-- Round an exact nonzero rational result to binary64 (round to nearest,
ties to even); an exactly zero argument yields +0. -/
def roundRat (q : ℚ) : Double :=
  if q = 0 then .zero false
  else if 0 < q then roundMag false q else roundMag true (-q)

/-- IEEE-754 binary64 addition, round to nearest, ties to even.  Exact
cancellation of nonzero operands yields +0; adding zeros follows the
IEEE sign rules ((-0) + (-0) = -0, otherwise +0). -/
def fadd (x y : Double) : Double :=
  match x, y with
  | .nan, _ => .nan
  | _, .nan => .nan
  | .inf s, .inf t => if s = t then .inf s else .nan
  | .inf s, _ => .inf s
  | _, .inf t => .inf t
  | .zero s, .zero t => if s = t then .zero s else .zero false
  | .zero _, b => b
  | a, .zero _ => a
  | a, b =>
      if toRat a + toRat b = 0 then .zero false
      else roundRat (toRat a + toRat b)

/-- IEEE-754 binary64 subtraction: addition of the negated subtrahend. -/
def fsub (x y : Double) : Double := fadd x (fneg y)

/-- IEEE-754 binary64 multiplication, round to nearest, ties to even. -/
def fmul (x y : Double) : Double :=
  match x, y with
  | .nan, _ => .nan
  | _, .nan => .nan
  | .inf s, .inf t => .inf (Bool.xor s t)
  | .inf _, .zero _ => .nan
  | .zero _, .inf _ => .nan
  | .inf s, .finite t _ _ => .inf (Bool.xor s t)
  | .finite s _ _, .inf t => .inf (Bool.xor s t)
  | .zero s, .zero t => .zero (Bool.xor s t)
  | .zero s, .finite t _ _ => .zero (Bool.xor s t)
  | .finite s _ _, .zero t => .zero (Bool.xor s t)
  | a, b => roundRat (toRat a * toRat b)

/-- IEEE-754 binary64 division, round to nearest, ties to even, with the
usual special cases (0/0 and inf/inf are NaN, finite/0 is a signed
infinity, anything finite over infinity is a signed zero). -/
def fdiv (x y : Double) : Double :=
  match x, y with
  | .nan, _ => .nan
  | _, .nan => .nan
  | .inf _, .inf _ => .nan
  | .inf s, .zero t => .inf (Bool.xor s t)
  | .inf s, .finite t _ _ => .inf (Bool.xor s t)
  | .zero s, .inf t => .zero (Bool.xor s t)
  | .finite s _ _, .inf t => .zero (Bool.xor s t)
  | .zero _, .zero _ => .nan
  | .finite s _ _, .zero t => .inf (Bool.xor s t)
  | .zero s, .finite t _ _ => .zero (Bool.xor s t)
  | a, b => roundRat (toRat a / toRat b)

/-- The C integer literal `0` converted to double: +0.0. -/
def dlitZero : Double := .zero false

/-- Embedding of `double add(double a, double b) { return a + b; }`. -/
def add (a b : Double) : Double := fadd a b

/-- Embedding of `double substract(double a, double b) { return a - b; }`. -/
def substract (a b : Double) : Double := fsub a b

/-- Embedding of `double multiply(double a, double b) { return a * b; }`. -/
def multiply (a b : Double) : Double := fmul a b

/-- Embedding of `divide`: the guard `b == 0` is the C floating-point
equality comparison of the divisor against the literal `0`, and both
`return 0;` statements yield the double +0.0. -/
def divide (a b : Double) : Double :=
  if feq b dlitZero then dlitZero else fdiv a b

/-- The double 1.0. -/
def dOne : Double := .finite false (2 ^ 52) (-52)

/-- The double 2.0. -/
def dTwo : Double := .finite false (2 ^ 52) (-51)

/-! Basic lemmas about values and comparison. -/

theorem toRat_finite_ne_zero (s : Bool) (m : ℕ) (e : ℤ) (hm : 0 < m) :
    toRat (.finite s m e) ≠ 0 := by
  have h2 : (2 : ℚ) ^ e ≠ 0 := zpow_ne_zero e two_ne_zero
  have hmq : (m : ℚ) ≠ 0 := Nat.cast_ne_zero.mpr hm.ne'
  cases s <;> simp [toRat, h2, hmq]

theorem feq_refl (x : Double) (h : x ≠ .nan) : feq x x = true := by
  cases x with
  | nan => exact absurd rfl h
  | inf s => simp [feq]
  | zero s => simp [feq]
  | finite s m e => simp [feq]

theorem fadd_comm (x y : Double) : fadd x y = fadd y x := by
  cases x <;> cases y <;>
    simp only [fadd] <;>
    first
      | rfl
      | rw [add_comm]
      | (rename_i s t
         cases s <;> cases t <;> rfl)

theorem fmul_comm (x y : Double) : fmul x y = fmul y x := by
  cases x <;> cases y <;>
    simp only [fmul] <;>
    first
      | rfl
      | (rename_i s t; rw [Bool.xor_comm])
      | rw [mul_comm]

/-! Correctness of the base-2 logarithm and the rounding identity. -/

theorem flog2_spec (q : ℚ) (hq : 0 < q) :
    (2 : ℚ) ^ flog2 q ≤ q ∧ q < (2 : ℚ) ^ (flog2 q + 1) := by
  have hnum : 0 < q.num := Rat.num_pos.mpr hq
  have hn0 : q.num.natAbs ≠ 0 := Int.natAbs_ne_zero.mpr hnum.ne'
  have hd0 : q.den ≠ 0 := q.den_nz
  have hdpos : (0 : ℚ) < (q.den : ℚ) := by exact_mod_cast Nat.pos_of_ne_zero hd0
  have hnpos : (0 : ℚ) < (q.num.natAbs : ℚ) := by exact_mod_cast Nat.pos_of_ne_zero hn0
  have hq_eq : q = (q.num.natAbs : ℚ) / (q.den : ℚ) := by
    have hcast : ((q.num.natAbs : ℚ)) = (q.num : ℚ) := by
      rw [Int.cast_natAbs]
      exact_mod_cast abs_of_pos hnum
    rw [hcast]
    exact (Rat.num_div_den q).symm
  have h1 : (2 : ℚ) ^ (Nat.log 2 q.num.natAbs) ≤ (q.num.natAbs : ℚ) := by
    exact_mod_cast Nat.cast_le.mpr (Nat.pow_log_le_self 2 hn0)
  have h2 : (q.num.natAbs : ℚ) < (2 : ℚ) ^ (Nat.log 2 q.num.natAbs + 1) := by
    exact_mod_cast Nat.cast_lt.mpr (Nat.lt_pow_succ_log_self (by norm_num) q.num.natAbs)
  have h3 : (2 : ℚ) ^ (Nat.log 2 q.den) ≤ (q.den : ℚ) := by
    exact_mod_cast Nat.cast_le.mpr (Nat.pow_log_le_self 2 hd0)
  have h4 : (q.den : ℚ) < (2 : ℚ) ^ (Nat.log 2 q.den + 1) := by
    exact_mod_cast Nat.cast_lt.mpr (Nat.lt_pow_succ_log_self (by norm_num) q.den)
  have hupper : q < (2 : ℚ) ^ ((Nat.log 2 q.num.natAbs : ℤ) - (Nat.log 2 q.den : ℤ) + 1) := by
    have e1 : (2 : ℚ) ^ ((Nat.log 2 q.num.natAbs : ℤ) - (Nat.log 2 q.den : ℤ) + 1)
        = (2 : ℚ) ^ (Nat.log 2 q.num.natAbs + 1) / (2 : ℚ) ^ (Nat.log 2 q.den) := by
      rw [← zpow_natCast (2 : ℚ) (Nat.log 2 q.num.natAbs + 1),
        ← zpow_natCast (2 : ℚ) (Nat.log 2 q.den), ← zpow_sub₀ two_ne_zero]
      congr 1
      push_cast
      ring
    calc q = (q.num.natAbs : ℚ) / (q.den : ℚ) := hq_eq
      _ ≤ (q.num.natAbs : ℚ) / (2 : ℚ) ^ (Nat.log 2 q.den) :=
          div_le_div_of_nonneg_left hnpos.le (by positivity) h3
      _ < (2 : ℚ) ^ (Nat.log 2 q.num.natAbs + 1) / (2 : ℚ) ^ (Nat.log 2 q.den) :=
          (div_lt_div_iff_of_pos_right (by positivity)).mpr h2
      _ = (2 : ℚ) ^ ((Nat.log 2 q.num.natAbs : ℤ) - (Nat.log 2 q.den : ℤ) + 1) := e1.symm
  have hlower : (2 : ℚ) ^ ((Nat.log 2 q.num.natAbs : ℤ) - (Nat.log 2 q.den : ℤ) - 1) < q := by
    have e1 : (2 : ℚ) ^ ((Nat.log 2 q.num.natAbs : ℤ) - (Nat.log 2 q.den : ℤ) - 1)
        = (2 : ℚ) ^ (Nat.log 2 q.num.natAbs) / (2 : ℚ) ^ (Nat.log 2 q.den + 1) := by
      rw [← zpow_natCast (2 : ℚ) (Nat.log 2 q.num.natAbs),
        ← zpow_natCast (2 : ℚ) (Nat.log 2 q.den + 1), ← zpow_sub₀ two_ne_zero]
      congr 1
      push_cast
      ring
    calc (2 : ℚ) ^ ((Nat.log 2 q.num.natAbs : ℤ) - (Nat.log 2 q.den : ℤ) - 1)
        = (2 : ℚ) ^ (Nat.log 2 q.num.natAbs) / (2 : ℚ) ^ (Nat.log 2 q.den + 1) := e1
      _ ≤ (q.num.natAbs : ℚ) / (2 : ℚ) ^ (Nat.log 2 q.den + 1) :=
          (div_le_div_iff_of_pos_right (by positivity)).mpr h1
      _ < (q.num.natAbs : ℚ) / (q.den : ℚ) :=
          div_lt_div_of_pos_left hnpos hdpos h4
      _ = q := hq_eq.symm
  rw [flog2]
  split_ifs with h
  · exact ⟨h, hupper⟩
  · refine ⟨hlower.le, ?_⟩
    have e2 : (Nat.log 2 q.num.natAbs : ℤ) - (Nat.log 2 q.den : ℤ) - 1 + 1
        = (Nat.log 2 q.num.natAbs : ℤ) - (Nat.log 2 q.den : ℤ) := by ring
    rw [e2]
    exact lt_of_not_le h

theorem flog2_unique (q : ℚ) (e : ℤ) (h1 : (2 : ℚ) ^ e ≤ q)
    (h2 : q < (2 : ℚ) ^ (e + 1)) : flog2 q = e := by
  have hq : 0 < q := lt_of_lt_of_le (zpow_pos (by norm_num) e) h1
  obtain ⟨g1, g2⟩ := flog2_spec q hq
  have a1 : (2 : ℚ) ^ e < (2 : ℚ) ^ (flog2 q + 1) := lt_of_le_of_lt h1 g2
  have a2 : (2 : ℚ) ^ (flog2 q) < (2 : ℚ) ^ (e + 1) := lt_of_le_of_lt g1 h2
  rw [zpow_lt_zpow_iff_right₀ (by norm_num)] at a1 a2
  omega

theorem rnint_intCast (n : ℤ) : rnint (n : ℚ) = n := by
  norm_num [rnint, Int.floor_intCast]

theorem valid_finite_iff (s : Bool) (m : ℕ) (e : ℤ) :
    Valid (.finite s m e) ↔
      (0 < m ∧ m < 2 ^ 53 ∧ -1074 ≤ e ∧ e ≤ 971 ∧ (2 ^ 52 ≤ m ∨ e = -1074)) :=
  Iff.rfl

theorem flog2_finite (m : ℕ) (e : ℤ) (hm : m ≠ 0) :
    flog2 ((m : ℚ) * (2 : ℚ) ^ e) = (Nat.log 2 m : ℤ) + e := by
  apply flog2_unique
  · rw [zpow_add₀ two_ne_zero, zpow_natCast]
    have h1 : (2 : ℚ) ^ (Nat.log 2 m) ≤ (m : ℚ) := by
      exact_mod_cast Nat.cast_le.mpr (Nat.pow_log_le_self 2 hm)
    exact mul_le_mul_of_nonneg_right h1 (zpow_pos (by norm_num) e).le
  · rw [show (Nat.log 2 m : ℤ) + e + 1 = ((Nat.log 2 m + 1 : ℕ) : ℤ) + e by push_cast; ring,
      zpow_add₀ two_ne_zero, zpow_natCast]
    have h2 : (m : ℚ) < (2 : ℚ) ^ (Nat.log 2 m + 1) := by
      exact_mod_cast Nat.cast_lt.mpr (Nat.lt_pow_succ_log_self (by norm_num) m)
    exact mul_lt_mul_of_pos_right h2 (zpow_pos (by norm_num) e)

theorem roundExp_finite (s : Bool) (m : ℕ) (e : ℤ) (hv : Valid (.finite s m e)) :
    roundExp ((m : ℚ) * (2 : ℚ) ^ e) = e := by
  rw [valid_finite_iff] at hv
  obtain ⟨hm, hlt, hle, hge, hnorm⟩ := hv
  rw [roundExp, flog2_finite m e hm.ne']
  rcases hnorm with hnormal | hsub
  · have hlog : Nat.log 2 m = 52 := Nat.log_eq_of_pow_le_of_lt_pow hnormal hlt
    rw [hlog]
    omega
  · subst hsub
    have hlog : Nat.log 2 m < 53 := (Nat.lt_pow_iff_log_lt (by norm_num) hm.ne').mp hlt
    omega

theorem roundSig_finite (s : Bool) (m : ℕ) (e : ℤ) (hv : Valid (.finite s m e)) :
    roundSig ((m : ℚ) * (2 : ℚ) ^ e) = m := by
  rw [roundSig, roundExp_finite s m e hv,
    mul_div_cancel_right₀ _ (zpow_ne_zero e two_ne_zero),
    show ((m : ℚ)) = ((m : ℤ) : ℚ) by push_cast; ring,
    rnint_intCast]
  exact Int.toNat_natCast m

theorem roundMag_finite (s : Bool) (m : ℕ) (e : ℤ) (hv : Valid (.finite s m e)) :
    roundMag s ((m : ℚ) * (2 : ℚ) ^ e) = .finite s m e := by
  have hv' := (valid_finite_iff s m e).mp hv
  obtain ⟨hm, hlt, hle, hge, hnorm⟩ := hv'
  rw [roundMag, roundSig_finite s m e hv, roundExp_finite s m e hv,
    if_neg hm.ne', if_pos hlt, if_pos hge]

theorem roundRat_toRat (s : Bool) (m : ℕ) (e : ℤ) (hv : Valid (.finite s m e)) :
    roundRat (toRat (.finite s m e)) = .finite s m e := by
  have hm : 0 < m := ((valid_finite_iff s m e).mp hv).1
  have hqpos : (0 : ℚ) < (m : ℚ) * (2 : ℚ) ^ e :=
    mul_pos (by exact_mod_cast hm) (zpow_pos (by norm_num) e)
  cases s with
  | false =>
      have ht : toRat (.finite false m e) = (m : ℚ) * (2 : ℚ) ^ e := by
        simp [toRat]
      rw [ht, roundRat, if_neg hqpos.ne', if_pos hqpos]
      exact roundMag_finite false m e hv
  | true =>
      have ht : toRat (.finite true m e) = -((m : ℚ) * (2 : ℚ) ^ e) := by
        simp [toRat]
      rw [ht, roundRat, if_neg (neg_ne_zero.mpr hqpos.ne'),
        if_neg (not_lt.mpr (neg_nonpos.mpr hqpos.le)), neg_neg]
      exact roundMag_finite true m e hv

theorem toRat_fneg (x : Double) : toRat (fneg x) = -toRat x := by
  cases x with
  | nan => simp [toRat, fneg]
  | inf s => simp [toRat, fneg]
  | zero s => simp [toRat, fneg]
  | finite s m e => cases s <;> simp [toRat, fneg]

theorem toRat_dOne : toRat dOne = 1 := by
  have key : ((2 : ℚ) ^ (52 : ℕ)) * (2 : ℚ) ^ (-52 : ℤ) = 1 := by
    rw [← zpow_natCast (2 : ℚ) 52, ← zpow_add₀ two_ne_zero]
    norm_num
  simpa [toRat, dOne] using key

/-! Reference models of the IEEE-754 binary64 operations on finite data,
written from the standard: the result is the exact rational result rounded
to nearest (ties to even), with the IEEE sign conventions for results that
are exactly zero.  These are the specification side of the refinement
claims about `add`, `substract`, `multiply` and `divide`. -/

/-- Reference IEEE-754 sum of two finite doubles: an exactly zero sum is +0
except that (-0) + (-0) = -0; any other sum is correctly rounded. -/
def ieeeSumRef (a b : Double) : Double :=
  if a = .zero true ∧ b = .zero true then .zero true
  else if toRat a + toRat b = 0 then .zero false
  else roundRat (toRat a + toRat b)

/-- Reference IEEE-754 difference of two finite doubles: an exactly zero
difference is +0 except that (-0) - (+0) = -0; any other difference is
correctly rounded. -/
def ieeeDiffRef (a b : Double) : Double :=
  if a = .zero true ∧ b = .zero false then .zero true
  else if toRat a - toRat b = 0 then .zero false
  else roundRat (toRat a - toRat b)

/-- Reference IEEE-754 product of two finite doubles: an exactly zero
product carries the XOR of the operand signs; any other product is
correctly rounded (underflowing to a signed zero, overflowing to
infinity). -/
def ieeeProdRef (a b : Double) : Double :=
  if toRat a * toRat b = 0 then .zero (Bool.xor (dsign a) (dsign b))
  else roundRat (toRat a * toRat b)

/-- Reference IEEE-754 quotient of a finite double by a nonzero finite
double: a zero dividend gives a zero carrying the XOR of the operand
signs; any other quotient is correctly rounded. -/
def ieeeQuotRef (a b : Double) : Double :=
  if toRat a = 0 then .zero (Bool.xor (dsign a) (dsign b))
  else roundRat (toRat a / toRat b)

/-- A checked raw division: the actual IEEE division, refusing (as `none`)
any divisor that compares equal to zero.  Used to express that `divide`
never performs a division whose divisor compares equal to zero. -/
def fdivOpt (x y : Double) : Option Double :=
  if feq y dlitZero then none else some (fdiv x y)

/-- `divide` with its division step routed through the checked division:
`none` would mean the guarded-out division was actually attempted. -/
def divideOpt (a b : Double) : Option Double :=
  if feq b dlitZero then some dlitZero else fdivOpt a b

/-! The claims. -/

/-- C1: For every finite double a, divide(a, 0.0) returns the sentinel
value 0.0 (rather than infinity, NaN, or an error). -/
theorem divide_by_zero_sentinel_finite (a : Double) (_hfa : Finite a) :
    divide a dlitZero = dlitZero := by
  rfl

theorem divide_by_zero_sentinel_finite_witness :
    Finite dOne ∧ divide dOne dlitZero = dlitZero :=
  ⟨by decide, divide_by_zero_sentinel_finite dOne (by decide)⟩

/-- C3: For every double a — including NaN and the two infinities —
divide(a, 0.0) returns 0.0: the zero-divisor sentinel takes precedence
over propagation of non-finite dividends, so in particular
divide(NaN, 0.0) = 0.0 rather than NaN. -/
theorem divide_by_zero_sentinel_all (a : Double) :
    divide a dlitZero = dlitZero ∧ divide Double.nan dlitZero = dlitZero :=
  ⟨rfl, rfl⟩

/-- C9: `divide` is total and its division step never receives a divisor
comparing equal to zero: routing the raw division through a checked
division that fails on such divisors still always produces the value of
`divide` (and `add`, `substract`, `multiply` are total Lean functions by
construction). -/
theorem divide_total_and_guarded (a b : Double) :
    divideOpt a b = some (divide a b) := by
  rw [divideOpt, divide, fdivOpt]
  by_cases h : feq b dlitZero = true
  · simp [h]
  · simp [h]

/-- C10: For every double a, divide(a, -0.0) returns 0.0: the guard
`b == 0` is a floating-point comparison under which negative zero
compares equal to zero, so a negative-zero divisor triggers the
sentinel rather than producing a signed infinity or NaN. -/
theorem divide_by_negzero_sentinel (a : Double) :
    divide a (Double.zero true) = dlitZero := by
  rfl

/-- C4: For every pair of finite doubles a, b, add(a, b) returns the
IEEE-754 double-precision sum of a and b (round to nearest, ties to even,
including overflow to infinity and the IEEE signed-zero rules). -/
theorem add_ieee_correct (a b : Double) (hva : Valid a) (hvb : Valid b)
    (hfa : Finite a) (hfb : Finite b) : add a b = ieeeSumRef a b := by
  cases a with
  | nan => exact False.elim hfa
  | inf s => exact False.elim hfa
  | zero s =>
    cases b with
    | nan => exact False.elim hfb
    | inf t => exact False.elim hfb
    | zero t => cases s <;> cases t <;> simp [add, fadd, ieeeSumRef, toRat]
    | finite t m e =>
      have hm : 0 < m := ((valid_finite_iff t m e).mp hvb).1
      have hne : toRat (.finite t m e) ≠ 0 := toRat_finite_ne_zero t m e hm
      have hL : add (.zero s) (.finite t m e) = .finite t m e := rfl
      have hsum : toRat (.zero s) + toRat (.finite t m e) = toRat (.finite t m e) := by
        simp [toRat]
      rw [hL, ieeeSumRef, if_neg (by simp), hsum, if_neg hne]
      exact (roundRat_toRat t m e hvb).symm
  | finite s m e =>
    cases b with
    | nan => exact False.elim hfb
    | inf t => exact False.elim hfb
    | zero t =>
      have hm : 0 < m := ((valid_finite_iff s m e).mp hva).1
      have hne : toRat (.finite s m e) ≠ 0 := toRat_finite_ne_zero s m e hm
      have hL : add (.finite s m e) (.zero t) = .finite s m e := rfl
      have hsum : toRat (.finite s m e) + toRat (.zero t) = toRat (.finite s m e) := by
        simp [toRat]
      rw [hL, ieeeSumRef, if_neg (by simp), hsum, if_neg hne]
      exact (roundRat_toRat s m e hva).symm
    | finite t m2 e2 =>
      have hL : add (.finite s m e) (.finite t m2 e2)
          = if toRat (.finite s m e) + toRat (.finite t m2 e2) = 0 then Double.zero false
            else roundRat (toRat (.finite s m e) + toRat (.finite t m2 e2)) := rfl
      rw [hL, ieeeSumRef,
        if_neg (show ¬(Double.finite s m e = Double.zero true ∧
          Double.finite t m2 e2 = Double.zero true) from by simp)]

theorem add_ieee_correct_witness :
    Valid dOne ∧ Valid dTwo ∧ Finite dOne ∧ Finite dTwo ∧
      add dOne dTwo = ieeeSumRef dOne dTwo :=
  ⟨by decide, by decide, by decide, by decide,
    add_ieee_correct dOne dTwo (by decide) (by decide) (by decide) (by decide)⟩

/-- C5: For every pair of finite doubles a, b, the subtraction operation
(implemented by the function named `substract`) returns the IEEE-754
double-precision difference of a and b. -/
theorem substract_ieee_correct (a b : Double) (hva : Valid a) (hvb : Valid b)
    (hfa : Finite a) (hfb : Finite b) : substract a b = ieeeDiffRef a b := by
  cases a with
  | nan => exact False.elim hfa
  | inf s => exact False.elim hfa
  | zero s =>
    cases b with
    | nan => exact False.elim hfb
    | inf t => exact False.elim hfb
    | zero t => cases s <;> cases t <;> simp [substract, fsub, fadd, fneg, ieeeDiffRef, toRat]
    | finite t m e =>
      have hm : 0 < m := ((valid_finite_iff t m e).mp hvb).1
      have hvb' : Valid (.finite (!t) m e) :=
        (valid_finite_iff (!t) m e).mpr ((valid_finite_iff t m e).mp hvb)
      have hL : substract (.zero s) (.finite t m e) = .finite (!t) m e := rfl
      have hdiff : toRat (.zero s) - toRat (.finite t m e) = toRat (.finite (!t) m e) := by
        rw [show toRat (Double.zero s) = 0 from rfl, zero_sub,
          show (Double.finite (!t) m e) = fneg (.finite t m e) from rfl, toRat_fneg]
      have hne : toRat (.zero s) - toRat (.finite t m e) ≠ 0 := by
        rw [hdiff]
        exact toRat_finite_ne_zero (!t) m e hm
      rw [hL, ieeeDiffRef, if_neg (by simp), if_neg hne, hdiff]
      exact (roundRat_toRat (!t) m e hvb').symm
  | finite s m e =>
    cases b with
    | nan => exact False.elim hfb
    | inf t => exact False.elim hfb
    | zero t =>
      have hm : 0 < m := ((valid_finite_iff s m e).mp hva).1
      have hL : substract (.finite s m e) (.zero t) = .finite s m e := rfl
      have hdiff : toRat (.finite s m e) - toRat (.zero t) = toRat (.finite s m e) := by
        simp [toRat]
      rw [hL, ieeeDiffRef, if_neg (by simp), hdiff, if_neg (toRat_finite_ne_zero s m e hm)]
      exact (roundRat_toRat s m e hva).symm
    | finite t m2 e2 =>
      have hL : substract (.finite s m e) (.finite t m2 e2)
          = if toRat (.finite s m e) + toRat (fneg (.finite t m2 e2)) = 0 then Double.zero false
            else roundRat (toRat (.finite s m e) + toRat (fneg (.finite t m2 e2))) := rfl
      rw [hL, toRat_fneg, ← sub_eq_add_neg, ieeeDiffRef,
        if_neg (show ¬(Double.finite s m e = Double.zero true ∧
          Double.finite t m2 e2 = Double.zero false) from by simp)]

theorem substract_ieee_correct_witness :
    Valid dOne ∧ Valid dTwo ∧ Finite dOne ∧ Finite dTwo ∧
      substract dOne dTwo = ieeeDiffRef dOne dTwo :=
  ⟨by decide, by decide, by decide, by decide,
    substract_ieee_correct dOne dTwo (by decide) (by decide) (by decide) (by decide)⟩

/-- C6: For every pair of finite doubles a, b, multiply(a, b) returns the
IEEE-754 double-precision product of a and b (round to nearest, ties to
even, including underflow to a signed zero and overflow to infinity). -/
theorem multiply_ieee_correct (a b : Double) (hva : Valid a) (hvb : Valid b)
    (hfa : Finite a) (hfb : Finite b) : multiply a b = ieeeProdRef a b := by
  cases a with
  | nan => exact False.elim hfa
  | inf s => exact False.elim hfa
  | zero s =>
    cases b with
    | nan => exact False.elim hfb
    | inf t => exact False.elim hfb
    | zero t =>
      have hL : multiply (.zero s) (.zero t) = .zero (Bool.xor s t) := rfl
      rw [hL, ieeeProdRef, if_pos (by simp [toRat])]
      rfl
    | finite t m e =>
      have hL : multiply (.zero s) (.finite t m e) = .zero (Bool.xor s t) := rfl
      rw [hL, ieeeProdRef, if_pos (by simp [toRat])]
      rfl
  | finite s m e =>
    cases b with
    | nan => exact False.elim hfb
    | inf t => exact False.elim hfb
    | zero t =>
      have hL : multiply (.finite s m e) (.zero t) = .zero (Bool.xor s t) := rfl
      rw [hL, ieeeProdRef, if_pos (by simp [toRat])]
      rfl
    | finite t m2 e2 =>
      have h1 : toRat (.finite s m e) ≠ 0 :=
        toRat_finite_ne_zero s m e ((valid_finite_iff s m e).mp hva).1
      have h2 : toRat (.finite t m2 e2) ≠ 0 :=
        toRat_finite_ne_zero t m2 e2 ((valid_finite_iff t m2 e2).mp hvb).1
      have hL : multiply (.finite s m e) (.finite t m2 e2)
          = roundRat (toRat (.finite s m e) * toRat (.finite t m2 e2)) := rfl
      rw [hL, ieeeProdRef, if_neg (mul_ne_zero h1 h2)]

theorem multiply_ieee_correct_witness :
    Valid dOne ∧ Valid dTwo ∧ Finite dOne ∧ Finite dTwo ∧
      multiply dOne dTwo = ieeeProdRef dOne dTwo :=
  ⟨by decide, by decide, by decide, by decide,
    multiply_ieee_correct dOne dTwo (by decide) (by decide) (by decide) (by decide)⟩

/-- C2: For every pair of finite doubles a, b with b not equal to 0,
divide(a, b) returns the IEEE-754 double-precision quotient of a by b
(round to nearest, ties to even). -/
theorem divide_nonzero_correctly_rounded (a b : Double) (hva : Valid a) (hvb : Valid b)
    (hfa : Finite a) (hfb : Finite b) (hb : toRat b ≠ 0) :
    divide a b = ieeeQuotRef a b := by
  cases b with
  | nan => exact False.elim hfb
  | inf t => exact False.elim hfb
  | zero t => exact absurd (show toRat (Double.zero t) = 0 from rfl) hb
  | finite t m2 e2 =>
    have hguard : feq (.finite t m2 e2) dlitZero = false := by
      have harm : feq (.finite t m2 e2) dlitZero
          = decide (toRat (.finite t m2 e2) = toRat (Double.zero false)) := rfl
      rw [harm]
      exact decide_eq_false hb
    rw [divide, hguard]
    simp only [Bool.false_eq_true, if_false]
    cases a with
    | nan => exact False.elim hfa
    | inf s => exact False.elim hfa
    | zero s =>
      have hL : fdiv (.zero s) (.finite t m2 e2) = .zero (Bool.xor s t) := rfl
      rw [hL, ieeeQuotRef, if_pos (show toRat (Double.zero s) = 0 from rfl)]
      rfl
    | finite s m e =>
      have ha : toRat (.finite s m e) ≠ 0 :=
        toRat_finite_ne_zero s m e ((valid_finite_iff s m e).mp hva).1
      have hL : fdiv (.finite s m e) (.finite t m2 e2)
          = roundRat (toRat (.finite s m e) / toRat (.finite t m2 e2)) := rfl
      rw [hL, ieeeQuotRef, if_neg ha]

theorem divide_nonzero_correctly_rounded_witness :
    Valid dOne ∧ Valid dTwo ∧ Finite dOne ∧ Finite dTwo ∧ toRat dTwo ≠ 0 ∧
      divide dOne dTwo = ieeeQuotRef dOne dTwo :=
  ⟨by decide, by decide, by decide, by decide,
    toRat_finite_ne_zero false (2 ^ 52) (-51) (by norm_num),
    divide_nonzero_correctly_rounded dOne dTwo
      (by decide) (by decide) (by decide) (by decide)
      (toRat_finite_ne_zero false (2 ^ 52) (-51) (by norm_num))⟩

/-- C7 counterexample: with a NaN operand both `add(a, b)` and
`add(b, a)` are NaN, and NaN compares unequal to everything under
floating-point equality, so the commutativity equations fail at
a = NaN, b = 0.0. -/
theorem comm_fpeq_cex :
    feq (add Double.nan dlitZero) (add dlitZero Double.nan) = false ∧
      feq (multiply Double.nan dlitZero) (multiply dlitZero Double.nan) = false :=
  ⟨rfl, rfl⟩

/-- C7 (amended): for every pair of doubles a, b, if add(a, b) is not
NaN then add(a, b) == add(b, a), and if multiply(a, b) is not NaN then
multiply(a, b) == multiply(b, a), under floating-point equality — each
equation conditioned only on its own result; the results are in fact
identical data even when NaN, but a NaN result compares unequal to
itself. -/
theorem comm_fpeq_amended (a b : Double) :
    (add a b ≠ Double.nan → feq (add a b) (add b a) = true) ∧
      (multiply a b ≠ Double.nan → feq (multiply a b) (multiply b a) = true) := by
  constructor
  · intro h1
    have e : add b a = add a b := fadd_comm b a
    rw [e]
    exact feq_refl _ h1
  · intro h2
    have e : multiply b a = multiply a b := fmul_comm b a
    rw [e]
    exact feq_refl _ h2

theorem comm_fpeq_amended_witness :
    (add (Double.inf false) dlitZero ≠ Double.nan ∧
      feq (add (Double.inf false) dlitZero) (add dlitZero (Double.inf false)) = true) ∧
    (multiply (Double.inf false) (Double.inf true) ≠ Double.nan ∧
      feq (multiply (Double.inf false) (Double.inf true))
        (multiply (Double.inf true) (Double.inf false)) = true) :=
  ⟨⟨by decide, (comm_fpeq_amended (Double.inf false) dlitZero).1 (by decide)⟩,
    ⟨by decide, (comm_fpeq_amended (Double.inf false) (Double.inf true)).2 (by decide)⟩⟩

/-- C8 counterexample: add(NaN, 0.0) is NaN, and NaN compares unequal to
itself under floating-point equality, so the identity equation
add(a, 0.0) == a fails at a = NaN. -/
theorem identity_fpeq_cex : feq (add Double.nan dlitZero) Double.nan = false :=
  rfl

/-- C8 (amended): for every double a other than NaN, add(a, 0.0) == a,
multiply(a, 1.0) == a and divide(a, 1.0) == a under floating-point
equality; at a = NaN all three results are NaN, which compares unequal
to itself. -/
theorem identity_fpeq_amended (a : Double) (hv : Valid a) (hn : a ≠ Double.nan) :
    feq (add a dlitZero) a = true ∧ feq (multiply a dOne) a = true ∧
      feq (divide a dOne) a = true := by
  have hone : toRat dOne ≠ 0 := by
    rw [toRat_dOne]
    norm_num
  have hg : feq dOne dlitZero = false := by
    rw [show feq dOne dlitZero
        = decide (toRat dOne = toRat (Double.zero false)) from rfl]
    exact decide_eq_false hone
  refine ⟨?_, ?_, ?_⟩
  · cases a with
    | nan => exact absurd rfl hn
    | inf s => exact feq_refl (.inf s) (by simp)
    | zero s =>
      cases s with
      | false => exact feq_refl (.zero false) (by simp)
      | true =>
        rw [show add (.zero true) dlitZero = Double.zero false from rfl,
          show feq (Double.zero false) (Double.zero true)
            = decide (toRat (Double.zero false) = toRat (Double.zero true)) from rfl]
        exact decide_eq_true rfl
    | finite s m e => exact feq_refl (.finite s m e) (by simp)
  · cases a with
    | nan => exact absurd rfl hn
    | inf s =>
      have hL : multiply (.inf s) dOne = .inf s := by
        rw [show multiply (.inf s) dOne = Double.inf (Bool.xor s false) from rfl,
          Bool.xor_false]
      rw [hL]
      exact feq_refl _ (by simp)
    | zero s =>
      have hL : multiply (.zero s) dOne = .zero s := by
        rw [show multiply (.zero s) dOne = Double.zero (Bool.xor s false) from rfl,
          Bool.xor_false]
      rw [hL]
      exact feq_refl _ (by simp)
    | finite s m e =>
      have hL : multiply (.finite s m e) dOne
          = roundRat (toRat (.finite s m e) * toRat dOne) := rfl
      rw [hL, toRat_dOne, mul_one, roundRat_toRat s m e hv]
      exact feq_refl _ (by simp)
  · cases a with
    | nan => exact absurd rfl hn
    | inf s =>
      have hL : divide (.inf s) dOne = .inf s := by
        rw [divide, hg]
        simp only [Bool.false_eq_true, if_false]
        rw [show fdiv (.inf s) dOne = Double.inf (Bool.xor s false) from rfl,
          Bool.xor_false]
      rw [hL]
      exact feq_refl _ (by simp)
    | zero s =>
      have hL : divide (.zero s) dOne = .zero s := by
        rw [divide, hg]
        simp only [Bool.false_eq_true, if_false]
        rw [show fdiv (.zero s) dOne = Double.zero (Bool.xor s false) from rfl,
          Bool.xor_false]
      rw [hL]
      exact feq_refl _ (by simp)
    | finite s m e =>
      have hL : divide (.finite s m e) dOne
          = roundRat (toRat (.finite s m e) / toRat dOne) := by
        rw [divide, hg]
        simp only [Bool.false_eq_true, if_false]
        rfl
      rw [hL, toRat_dOne, div_one, roundRat_toRat s m e hv]
      exact feq_refl _ (by simp)

theorem identity_fpeq_amended_witness :
    Valid dTwo ∧ dTwo ≠ Double.nan ∧
      (feq (add dTwo dlitZero) dTwo = true ∧ feq (multiply dTwo dOne) dTwo = true ∧
        feq (divide dTwo dOne) dTwo = true) :=
  ⟨by decide, by decide, identity_fpeq_amended dTwo (by decide) (by decide)⟩

end Calculator
